import Mathlib

/-!
Verification development for the segmented-message serialization layer
(`src/c++/src/capnp/serialize.c++`) and the futex-based synchronization
primitives (`src/c++/src/kj/mutex.c++`) of this repository.

The wire format works on 8-byte words; the segment table is addressed as
little-endian 32-bit values laid over the word buffer, so a word is modelled
as its two 32-bit halves.  All machine integers are modelled as `Nat` with
explicit `% 2^32` where the C++ performs 32-bit arithmetic.
-/

namespace Capnp

/-- An 8-byte word, given by its two little-endian 32-bit halves.
`lo` holds bytes 0..3, `hi` holds bytes 4..7 (each below `2^32` for a real
word; the definitions below only ever store 32-bit truncated values). -/
structure Word where
  lo : Nat
  hi : Nat
deriving DecidableEq

/-- The four little-endian bytes of a 32-bit value (`_::WireValue<uint32_t>`). -/
def u32LEBytes (n : Nat) : List Nat :=
  [n % 256, n / 256 % 256, n / 65536 % 256, n / 16777216 % 256]

/-- The eight bytes of a word, little-endian. -/
def Word.bytes (w : Word) : List Nat :=
  u32LEBytes w.lo ++ u32LEBytes w.hi

/-- Byte image of a word buffer. -/
def bytesOfWords (ws : List Word) : List Nat :=
  (ws.map Word.bytes).flatten

/-- Byte image of a sequence of 32-bit values. -/
def bytesOfU32s (es : List Nat) : List Nat :=
  (es.map u32LEBytes).flatten

/-- Read a little-endian 32-bit value at byte offset `off` (out-of-range
bytes read as 0; all uses in theorems stay in range). -/
def readU32LE (b : List Nat) (off : Nat) : Nat :=
  b.getD off 0 + 256 * b.getD (off + 1) 0 + 65536 * b.getD (off + 2) 0 +
    16777216 * b.getD (off + 3) 0

/-- Pack a list of 32-bit values into words, two per word (an odd leftover
value would occupy the low half of a final word; the table built by the
serializer always has an even number of entries). -/
def u32sToWords : List Nat → List Word
  | [] => []
  | [a] => [⟨a, 0⟩]
  | a :: b :: rest => ⟨a, b⟩ :: u32sToWords rest

/-- Read the `i`-th 32-bit table entry of a word buffer, as
`reinterpret_cast<const WireValue<uint32_t>*>(array.begin())[i]` does. -/
def tableGet (ws : List Word) (i : Nat) : Nat :=
  if i % 2 = 0 then (ws.getD (i / 2) ⟨0, 0⟩).lo else (ws.getD (i / 2) ⟨0, 0⟩).hi

/-- `computeSerializedSizeInWords` (serialize.c++:123-133): table words plus
payload words.  (The `KJ_REQUIRE(segments.size() > 0)` precondition is carried
as a hypothesis by the theorems that use this.) -/
def computeSerializedSizeInWords (segments : List (List Word)) : Nat :=
  segments.length / 2 + 1 + (segments.map List.length).sum

/-- The 32-bit segment table written by `messageToFlatArray`
(serialize.c++:100-109) and by `writeMessage` (serialize.c++:261-268):
entry 0 is `segmentCount - 1`, entry `i+1` is segment `i`'s size in words,
and for an even segment count a zero padding entry follows.  Stores truncate
to 32 bits (`WireValue<uint32_t>::set`), hence the `% 2^32`.  Faithful for
fewer than `2^32` segments (the C++ writes entries with a wrapping `uint`
loop counter, so a count of `2^32` or more never reaches this layout). -/
def segmentTable (segments : List (List Word)) : List Nat :=
  ((segments.length - 1) % 2 ^ 32) ::
    (segments.map (fun s => s.length % 2 ^ 32) ++
      (if segments.length % 2 = 0 then [0] else []))

/-- `messageToFlatArray` (serialize.c++:91-121): the table words followed by
the segments concatenated in order. -/
def messageToFlatArray (segments : List (List Word)) : List Word :=
  u32sToWords (segmentTable segments) ++ segments.flatten

/-- The state a `FlatArrayMessageReader` is left in by its constructor:
the recorded first segment, the remaining segments, the offset of `end`
from `array.begin()` in words, and whether a `KJ_REQUIRE` failure was
reported through the error callback. -/
structure FlatArrayMessageReader where
  segment0 : List Word
  moreSegments : List (List Word)
  endIdx : Nat
  errored : Bool
deriving DecidableEq

/-- The segment-slicing loop of the constructor (serialize.c++:65-75): for
each remaining size, check `array.size() >= offset + segmentSize` and record
the slice; on failure the caller discards the partial list
(`moreSegments = nullptr`). -/
def readSegs (array : List Word) : List Nat → Nat → Option (List (List Word) × Nat)
  | [], offset => some ([], offset)
  | sz :: rest, offset =>
    if array.length < offset + sz then none
    else
      match readSegs array rest (offset + sz) with
      | none => none
      | some (segs, e) => some (((array.drop offset).take sz) :: segs, e)

/-- `FlatArrayMessageReader::FlatArrayMessageReader` (serialize.c++:29-79).
`KJ_REQUIRE` failures report an error and return with the fields assigned so
far (`end` keeps its initial value `array.end()`). -/
def flatArrayMessageReader (array : List Word) : FlatArrayMessageReader :=
  if array.length < 1 then ⟨[], [], array.length, false⟩
  else
    let segmentCount := (tableGet array 0 + 1) % 2 ^ 32
    let offset := segmentCount / 2 + 1
    if array.length < offset then ⟨[], [], array.length, true⟩
    else if segmentCount = 0 then ⟨[], [], offset, false⟩
    else
      let segmentSize := tableGet array 1
      if array.length < offset + segmentSize then ⟨[], [], array.length, true⟩
      else
        let segment0 := (array.drop offset).take segmentSize
        if 1 < segmentCount then
          match readSegs array
              ((List.range' 1 (segmentCount - 1)).map (fun i => tableGet array (i + 1)))
              (offset + segmentSize) with
          | none => ⟨segment0, [], array.length, true⟩
          | some (segs, e) => ⟨segment0, segs, e, false⟩
        else ⟨segment0, [], offset + segmentSize, false⟩

/-- `FlatArrayMessageReader::getSegment` (serialize.c++:81-89); the null
return is the empty view `[]`. -/
def FlatArrayMessageReader.getSegment (r : FlatArrayMessageReader) (id : Nat) :
    List Word :=
  if id = 0 then r.segment0
  else if id ≤ r.moreSegments.length then r.moreSegments.getD (id - 1) []
  else []

/-- The segment count the constructor computes from the first table entry
(`table[0].get() + 1` in 32-bit arithmetic), 0 for an empty buffer. -/
def parsedSegmentCount (array : List Word) : Nat :=
  if array.length < 1 then 0 else (tableGet array 0 + 1) % 2 ^ 32

/-- `writeMessage` (serialize.c++:248-283), as the byte sequence the gathered
write hands to the output stream: the table bytes followed by each segment's
bytes. -/
def writeMessage (segments : List (List Word)) : List Nat :=
  bytesOfU32s (segmentTable segments) ++ (segments.map bytesOfWords).flatten

/-- Error kinds the `InputStreamMessageReader` constructor can report
(serialize.c++:150, serialize.c++:177). -/
inductive ErrKind
  | tooManySegments
  | messageTooLarge
deriving DecidableEq

/-- Observable actions of the `InputStreamMessageReader` constructor, in
order: stream read requests (`minBytes`, `maxBytes`), reported `KJ_REQUIRE`
failures, and the heap allocation of the segment buffer. -/
inductive Event
  | readStream (minBytes maxBytes : Nat)
  | errorReported (k : ErrKind)
  | allocSegmentSpace (words : Nat)
deriving DecidableEq

/-- The state `InputStreamMessageReader` keeps after construction: segment 0
size in words, the remaining segments as `(startWord, sizeWords)` slices of
the scratch buffer, the total word count, and the lazy-read cursor `readPos`
as a byte offset into the buffer (`none` models the null cursor of the
fully-eager path). -/
structure InputStreamMessageReader where
  segment0Size : Nat
  moreSegments : List (Nat × Nat)
  totalWords : Nat
  readPos : Option Nat
deriving DecidableEq

/-- Slice recording of serialize.c++:199-203: segment `i+1` starts where
segment `i` ended. -/
def buildMoreSegments (offset : Nat) : List Nat → List (Nat × Nat)
  | [] => []
  | sz :: rest => (offset, sz) :: buildMoreSegments (offset + sz) rest

/-- `segmentCount` parsed from the header: `firstWord[0].get() + 1` in
32-bit `uint` arithmetic (serialize.c++:144). -/
def ismrCount0 (input : List Nat) : Nat := (readU32LE input 0 + 1) % 2 ^ 32

/-- `segment0Size` parsed from the header (serialize.c++:145). -/
def ismrSeg0Size0 (input : List Nat) : Nat :=
  if ismrCount0 input = 0 then 0 else readU32LE input 4

/-- `segmentCount` after the too-many-segments recovery clamp
(serialize.c++:150-154 sets it to 1 when `512 ≤ segmentCount`). -/
def ismrCount1 (input : List Nat) : Nat :=
  if 512 ≤ ismrCount0 input then 1 else ismrCount0 input

/-- `segment0Size` after the too-many-segments recovery clamp
(serialize.c++:152 sets it to 1; `totalWords` is NOT updated there). -/
def ismrSeg0Size1 (input : List Nat) : Nat :=
  if 512 ≤ ismrCount0 input then 1 else ismrSeg0Size0 input

/-- Number of 32-bit entries read after the header: `segmentCount & ~1`
(serialize.c++:161). -/
def ismrPadded (input : List Nat) : Nat :=
  ismrCount1 input - ismrCount1 input % 2

/-- The sizes of segments 1.. read from the stream when `segmentCount > 1`
(serialize.c++:163-172). -/
def ismrMoreSizes (input : List Nat) : List Nat :=
  if 1 < ismrCount1 input then
    (List.range (ismrCount1 input - 1)).map (fun i => readU32LE input (8 + 4 * i))
  else []

/-- `totalWords` after summing the extra sizes (serialize.c++:147,169-171;
it starts from the header's `segment0Size`, unchanged by the
too-many-segments recovery). -/
def ismrTotal1 (input : List Nat) : Nat :=
  ismrSeg0Size0 input + (ismrMoreSizes input).sum

/-- `segmentCount` after the message-too-large recovery clamp
(serialize.c++:177-184). -/
def ismrCount2 (input : List Nat) (tl : Nat) : Nat :=
  if tl < ismrTotal1 input then 1 else ismrCount1 input

/-- `segment0Size` after the message-too-large recovery clamp
(`min(segment0Size, traversalLimitInWords)`, serialize.c++:181). -/
def ismrSeg0Size2 (input : List Nat) (tl : Nat) : Nat :=
  if tl < ismrTotal1 input then min (ismrSeg0Size1 input) tl else ismrSeg0Size1 input

/-- `totalWords` after the message-too-large recovery clamp
(serialize.c++:182-183). -/
def ismrTotal2 (input : List Nat) (tl : Nat) : Nat :=
  if tl < ismrTotal1 input then ismrSeg0Size2 input tl else ismrTotal1 input

/-- The recorded `moreSegments` slices (serialize.c++:195-204): built only
when the (possibly clamped) `segmentCount` exceeds 1. -/
def ismrMoreSegments (input : List Nat) (tl : Nat) : List (Nat × Nat) :=
  if 1 < ismrCount2 input tl then
    buildMoreSegments (ismrSeg0Size2 input tl) (ismrMoreSizes input)
  else []

/-- Byte position of the stream after the header and size reads. -/
def ismrPos (input : List Nat) : Nat := 8 + ismrPadded input * 4

/-- Constructor events up to and including the extra-sizes read: the 8-byte
header read, the too-many-segments error when it fires, and the exact read
of the remaining size entries when `segmentCount > 1`. -/
def ismrEv2 (input : List Nat) : List Event :=
  [.readStream 8 8] ++
    (if 512 ≤ ismrCount0 input then [.errorReported .tooManySegments] else []) ++
    (if 1 < ismrCount1 input then
      [.readStream (ismrPadded input * 4) (ismrPadded input * 4)] else [])

/-- Constructor events up to and including the segment-buffer allocation:
the message-too-large error when it fires, then the heap allocation when the
caller's scratch is too small (serialize.c++:186-191). -/
def ismrEv4 (input : List Nat) (tl sc : Nat) : List Event :=
  ismrEv2 input ++
    (if tl < ismrTotal1 input then [.errorReported .messageTooLarge] else []) ++
    (if sc < ismrTotal2 input tl then [.allocSegmentSpace (ismrTotal2 input tl)] else [])

/-- `InputStreamMessageReader::InputStreamMessageReader` (serialize.c++:137-212)
over a byte stream modelled as the list of bytes it will deliver, returning
the constructed reader (`none` when a stream read cannot deliver `minBytes`,
i.e. the read throws) and the trace of observable events.  `KJ_REQUIRE`
failures report an error event and continue with the recovery assignments of
their retry blocks.  The payload read of the multi-segment path returns
`min maxBytes available` bytes, a faithful instance of the stream contract
(at least `minBytes`, at most `maxBytes`). -/
def inputStreamMessageReader (input : List Nat) (traversalLimitInWords : Nat)
    (scratchLen : Nat) : Option InputStreamMessageReader × List Event :=
  if input.length < 8 then (none, [.readStream 8 8]) else
  if 1 < ismrCount1 input ∧ input.length < 8 + ismrPadded input * 4 then
    (none, ismrEv2 input)
  else if ismrCount2 input traversalLimitInWords = 1 then
    (if input.length < ismrPos input + ismrTotal2 input traversalLimitInWords * 8 then
      none
     else some ⟨ismrSeg0Size2 input traversalLimitInWords, [],
       ismrTotal2 input traversalLimitInWords, none⟩,
     ismrEv4 input traversalLimitInWords scratchLen ++
       [.readStream (ismrTotal2 input traversalLimitInWords * 8)
         (ismrTotal2 input traversalLimitInWords * 8)])
  else if 1 < ismrCount2 input traversalLimitInWords then
    (if input.length - ismrPos input < ismrSeg0Size2 input traversalLimitInWords * 8 then
      none
     else some ⟨ismrSeg0Size2 input traversalLimitInWords,
       ismrMoreSegments input traversalLimitInWords,
       ismrTotal2 input traversalLimitInWords,
       some (min (ismrTotal2 input traversalLimitInWords * 8)
         (input.length - ismrPos input))⟩,
     ismrEv4 input traversalLimitInWords scratchLen ++
       [.readStream (ismrSeg0Size2 input traversalLimitInWords * 8)
         (ismrTotal2 input traversalLimitInWords * 8)])
  else (some ⟨ismrSeg0Size2 input traversalLimitInWords,
    ismrMoreSegments input traversalLimitInWords,
    ismrTotal2 input traversalLimitInWords, none⟩,
    ismrEv4 input traversalLimitInWords scratchLen)

/-- The empty segment view (a null `ArrayPtr`). -/
def emptyView : Nat × Nat := (0, 0)

/-- The `(startWord, sizeWords)` range of segment `id`
(serialize.c++:230). -/
def InputStreamMessageReader.segmentRange (r : InputStreamMessageReader)
    (id : Nat) : Nat × Nat :=
  if id = 0 then (0, r.segment0Size) else r.moreSegments.getD (id - 1) (0, 0)

/-- The view `InputStreamMessageReader::getSegment` returns
(serialize.c++:225-244): the empty view past the recorded segments, else the
recorded slice. -/
def InputStreamMessageReader.getSegmentView (r : InputStreamMessageReader)
    (id : Nat) : Nat × Nat :=
  if r.moreSegments.length < id then emptyView else r.segmentRange id

/-- Word offset one past the end of the last slice of a segment list. -/
def lastEndOf (ms : List (Nat × Nat)) : Nat :=
  match ms.getLast? with
  | some q => q.1 + q.2
  | none => 0

/-- Word offset one past the last of `moreSegments`
(`moreSegments.back().end()`, serialize.c++:238); 0 when there are none
(the code only evaluates it when segments are lazily read, i.e. multiple
segments exist). -/
def InputStreamMessageReader.lastEnd (r : InputStreamMessageReader) : Nat :=
  lastEndOf r.moreSegments

/-- The `(minBytes, maxBytes)` request `getSegment(id)` issues to the stream
(serialize.c++:232-240): only for an in-range id, only while a lazy cursor
exists, and only when the cursor has not yet passed the segment's end. -/
def InputStreamMessageReader.getSegmentRequest (r : InputStreamMessageReader)
    (id : Nat) : Option (Nat × Nat) :=
  if r.moreSegments.length < id then none
  else
    match r.readPos with
    | none => none
    | some p =>
      let seg := r.segmentRange id
      let segmentEnd := (seg.1 + seg.2) * 8
      if p < segmentEnd then some (segmentEnd - p, r.lastEnd * 8 - p) else none

/-- Cursor advance performed by a lazy read inside `getSegment`
(serialize.c++:239): the stream returns some `n` between the requested
`minBytes` and `maxBytes` and `readPos` moves forward by `n`. -/
inductive MRStep : InputStreamMessageReader → InputStreamMessageReader → Prop
  | lazyRead (r : InputStreamMessageReader) (id n mn mx p : Nat) :
      r.getSegmentRequest id = some (mn, mx) → mn ≤ n → n ≤ mx →
      r.readPos = some p →
      MRStep r ⟨r.segment0Size, r.moreSegments, r.totalWords, some (p + n)⟩

/-- Reader states reachable from a successful construction through any
sequence of `getSegment` lazy reads. -/
def MRReachable (r : InputStreamMessageReader) : Prop :=
  ∃ input tl sc r0, (inputStreamMessageReader input tl sc).1 = some r0 ∧
    Relation.ReflTransGen MRStep r0 r

/-- Futex bit layout of the reader/writer mutex.  (The constants live in the
header `kj/mutex.h`, not among the provided sources; the spec fixes the
layout: bit 31 `EXCLUSIVE_HELD`, bit 30 `EXCLUSIVE_REQUESTED`, bits 0..29
the shared count.) -/
def EXCLUSIVE_HELD : Nat := 2 ^ 31

/-- Bit 30 of the mutex futex word: an exclusive waiter is parked. -/
def EXCLUSIVE_REQUESTED : Nat := 2 ^ 30

/-- Mask of bits 0..29 of the mutex futex word: the shared-lock count. -/
def SHARED_COUNT_MASK : Nat := 2 ^ 30 - 1

/-- Program position of one thread using the mutex (kj/mutex.c++:45-122). -/
inductive ThreadPC
  | idle
  | wantExcl
  | holdExcl
  | wantShared
  | sharedWaiting
  | holdShared
  | sharedClear
deriving DecidableEq

/-- One interleaved step of `Mutex::lock` / `Mutex::unlock`
(kj/mutex.c++:45-122).  The state is the 32-bit futex word plus the multiset
of thread positions.  Parking (`FUTEX_WAIT`) and waking (`FUTEX_WAKE`) do not
change the word, so waits are modelled as threads that may retry at any time.
A successful compare-exchange sees the current word, so the CAS loops are
modelled by steps guarded on the current word. -/
inductive MutexStep : Nat × Multiset ThreadPC → Nat × Multiset ThreadPC → Prop
  | beginExcl (f : Nat) (r : Multiset ThreadPC) :
      MutexStep (f, .idle ::ₘ r) (f, .wantExcl ::ₘ r)
  | beginShared (f : Nat) (r : Multiset ThreadPC) :
      MutexStep (f, .idle ::ₘ r) (f, .wantShared ::ₘ r)
  | lockExclFast (r : Multiset ThreadPC) :
      MutexStep (0, .wantExcl ::ₘ r) (EXCLUSIVE_HELD, .holdExcl ::ₘ r)
  | lockExclSetReq (f : Nat) (r : Multiset ThreadPC) :
      f &&& EXCLUSIVE_REQUESTED = 0 →
      MutexStep (f, .wantExcl ::ₘ r) (f ||| EXCLUSIVE_REQUESTED, .wantExcl ::ₘ r)
  | lockSharedAcq (f : Nat) (r : Multiset ThreadPC) :
      (f + 1) % 2 ^ 32 &&& EXCLUSIVE_HELD = 0 →
      MutexStep (f, .wantShared ::ₘ r) ((f + 1) % 2 ^ 32, .holdShared ::ₘ r)
  | lockSharedWait (f : Nat) (r : Multiset ThreadPC) :
      (f + 1) % 2 ^ 32 &&& EXCLUSIVE_HELD ≠ 0 →
      MutexStep (f, .wantShared ::ₘ r) ((f + 1) % 2 ^ 32, .sharedWaiting ::ₘ r)
  | sharedWake (f : Nat) (r : Multiset ThreadPC) :
      f &&& EXCLUSIVE_HELD = 0 →
      MutexStep (f, .sharedWaiting ::ₘ r) (f, .holdShared ::ₘ r)
  | unlockExcl (f : Nat) (r : Multiset ThreadPC) :
      MutexStep (f, .holdExcl ::ₘ r) (f &&& SHARED_COUNT_MASK, .idle ::ₘ r)
  | unlockSharedDone (f : Nat) (r : Multiset ThreadPC) :
      (f + (2 ^ 32 - 1)) % 2 ^ 32 ≠ EXCLUSIVE_REQUESTED →
      MutexStep (f, .holdShared ::ₘ r) ((f + (2 ^ 32 - 1)) % 2 ^ 32, .idle ::ₘ r)
  | unlockSharedSawReq (f : Nat) (r : Multiset ThreadPC) :
      (f + (2 ^ 32 - 1)) % 2 ^ 32 = EXCLUSIVE_REQUESTED →
      MutexStep (f, .holdShared ::ₘ r) ((f + (2 ^ 32 - 1)) % 2 ^ 32, .sharedClear ::ₘ r)
  | sharedClearHit (r : Multiset ThreadPC) :
      MutexStep (EXCLUSIVE_REQUESTED, .sharedClear ::ₘ r) (0, .idle ::ₘ r)
  | sharedClearMiss (f : Nat) (r : Multiset ThreadPC) :
      f ≠ EXCLUSIVE_REQUESTED →
      MutexStep (f, .sharedClear ::ₘ r) (f, .idle ::ₘ r)

/-- Initial mutex state: futex word 0 (`Mutex::Mutex`), `n` idle threads. -/
def mutexInit (n : Nat) : Nat × Multiset ThreadPC := (0, Multiset.replicate n .idle)

/-- States reachable from `n` idle threads under any interleaving. -/
def MutexReachable (n : Nat) (s : Nat × Multiset ThreadPC) : Prop :=
  Relation.ReflTransGen MutexStep (mutexInit n) s

/-- States of the `Once` latch (declared in `kj/mutex.h`; the spec lists
them in its data model). -/
inductive OnceState
  | UNINITIALIZED
  | INITIALIZING
  | INITIALIZING_WITH_WAITERS
  | INITIALIZED
  | DISABLED
deriving DecidableEq

/-- A latch together with the lazily initialized value it guards (the
`Lazy<T>` arrangement the tests exercise). -/
structure OnceCell (α : Type) where
  state : OnceState
  value : Option α
deriving DecidableEq

/-- How a `runOnce` call returns to its caller. -/
inductive RunOutcome
  | returned
  | raised
  | blocked
deriving DecidableEq

/-- `Once::runOnce` (kj/mutex.c++:137-186) as seen by a single caller: the
initializer either produces a value or exits abnormally (`Except.error`).
The winner of the `UNINITIALIZED → INITIALIZING` CAS runs the initializer;
`KJ_ON_SCOPE_FAILURE` swaps the state back to `UNINITIALIZED` and the failure
propagates (`raised`); normal completion stores the value and swaps to
`INITIALIZED`.  A caller that finds the latch `INITIALIZED` or `DISABLED`
returns at once; one that finds an initialization in flight parks
(`blocked` — no other thread exists in this sequential model to wake it). -/
def runOnce {α : Type} (c : OnceCell α) (init : Except Unit α) :
    OnceCell α × RunOutcome :=
  match c.state with
  | .UNINITIALIZED =>
    match init with
    | .error _ => (⟨.UNINITIALIZED, c.value⟩, .raised)
    | .ok v => (⟨.INITIALIZED, some v⟩, .returned)
  | .INITIALIZED => (c, .returned)
  | .DISABLED => (c, .returned)
  | .INITIALIZING => (c, .blocked)
  | .INITIALIZING_WITH_WAITERS => (c, .blocked)

/-! ### Segment-table helper lemmas -/

lemma u32sToWords_length (es : List Nat) :
    (u32sToWords es).length = (es.length + 1) / 2 := by
  induction es using u32sToWords.induct <;> simp [u32sToWords, *] <;> omega

lemma tableGet_u32sToWords (es : List Nat) (j : Nat) (h : j < es.length) :
    tableGet (u32sToWords es) j = es.getD j 0 := by
  induction es using u32sToWords.induct generalizing j with
  | case1 => simp at h
  | case2 a =>
    have hj0 : j = 0 := by simp at h; omega
    subst hj0
    simp [u32sToWords, tableGet]
  | case3 a b rest ih =>
    match j with
    | 0 => simp [u32sToWords, tableGet]
    | 1 => simp [u32sToWords, tableGet]
    | j + 2 =>
      have hj : j < rest.length := by simpa using h
      have e1 : (j + 2) % 2 = j % 2 := Nat.add_mod_right j 2
      have e2 : (j + 2) / 2 = j / 2 + 1 := Nat.add_div_right j (by norm_num)
      simp only [u32sToWords, tableGet, e1, e2, List.getD_cons_succ]
      simpa [tableGet] using ih j hj

lemma tableGet_append (ws t : List Word) (j : Nat) (h : j / 2 < ws.length) :
    tableGet (ws ++ t) j = tableGet ws j := by
  simp only [tableGet, List.getD_append _ _ _ _ h]

lemma segmentTable_length (S : List (List Word)) :
    (segmentTable S).length = 2 * (S.length / 2 + 1) := by
  rcases Nat.even_or_odd S.length with he | ho
  · have : S.length % 2 = 0 := Nat.even_iff.mp he
    simp [segmentTable, this]
    omega
  · have : S.length % 2 = 1 := Nat.odd_iff.mp ho
    simp [segmentTable, this]
    omega

lemma segmentTable_getD_zero (S : List (List Word)) :
    (segmentTable S).getD 0 0 = (S.length - 1) % 2 ^ 32 := rfl

lemma segmentTable_getD_succ (S : List (List Word)) (i : Nat) (h : i < S.length) :
    (segmentTable S).getD (i + 1) 0 = (S.getD i []).length % 2 ^ 32 := by
  have hm : i < (S.map (fun s => s.length % 2 ^ 32)).length := by simpa using h
  simp only [segmentTable, List.getD_cons_succ]
  rw [List.getD_append _ _ _ _ hm]
  simp [List.getD_eq_getElem?_getD, List.getElem?_map, List.getElem?_eq_getElem h]

/-! ### Lemmas about `messageToFlatArray` -/

lemma messageToFlatArray_words_length (S : List (List Word)) :
    (u32sToWords (segmentTable S)).length = S.length / 2 + 1 := by
  rw [u32sToWords_length, segmentTable_length]
  omega

lemma messageToFlatArray_length (S : List (List Word)) :
    (messageToFlatArray S).length = S.length / 2 + 1 + (S.map List.length).sum := by
  simp [messageToFlatArray, messageToFlatArray_words_length, List.length_flatten]

lemma messageToFlatArray_tableGet (S : List (List Word)) (j : Nat)
    (h : j < (segmentTable S).length) :
    tableGet (messageToFlatArray S) j = (segmentTable S).getD j 0 := by
  rw [messageToFlatArray, tableGet_append, tableGet_u32sToWords _ _ h]
  rw [u32sToWords_length]
  omega

lemma messageToFlatArray_drop (S : List (List Word)) :
    (messageToFlatArray S).drop (S.length / 2 + 1) = S.flatten := by
  rw [messageToFlatArray, ← messageToFlatArray_words_length S, List.drop_left]

/-! ### Lemmas about the constructor's segment loop -/

lemma readSegs_length (array : List Word) (sizes : List Nat) (offset : Nat)
    (segs : List (List Word)) (e : Nat)
    (h : readSegs array sizes offset = some (segs, e)) :
    segs.length = sizes.length := by
  induction sizes generalizing offset segs e with
  | nil => simp [readSegs] at h; simp [← h.1]
  | cons sz rest ih =>
    rw [readSegs] at h
    split at h
    · exact absurd h (by simp)
    · rcases hrec : readSegs array rest (offset + sz) with _ | ⟨segs2, e2⟩
      · rw [hrec] at h; exact absurd h (by simp)
      · rw [hrec] at h
        simp only [Option.some.injEq, Prod.mk.injEq] at h
        rw [← h.1]
        simp [ih _ _ _ hrec]

lemma readSegs_exact (array : List Word) (L : List (List Word)) (offset : Nat)
    (hdrop : array.drop offset = L.flatten) (hoff : offset ≤ array.length) :
    readSegs array (L.map List.length) offset =
      some (L, offset + (L.map List.length).sum) := by
  induction L generalizing offset with
  | nil => simp [readSegs]
  | cons s rest ih =>
    have hlen : array.length - offset = s.length + rest.flatten.length := by
      have := congrArg List.length hdrop
      simpa [List.length_drop] using this
    have hno : ¬ array.length < offset + s.length := by omega
    have hdrop2 : array.drop (offset + s.length) = rest.flatten := by
      rw [← List.drop_drop, hdrop, List.flatten_cons, List.drop_left]
    have htake : (array.drop offset).take s.length = s := by
      rw [hdrop, List.flatten_cons, List.take_left]
    rw [List.map_cons, readSegs, if_neg hno, ih _ hdrop2 (by omega), htake]
    simp
    omega

/-- Helper to identify the size list the constructor reads from the table
with a mapped list of segment lengths. -/
lemma range'_map_eq {α β : Type} (d : α) (f : α → β) (g : Nat → β) :
    ∀ (T : List α) (k : Nat), (∀ j, j < T.length → g (k + j) = f (T.getD j d)) →
    (List.range' k T.length).map g = T.map f
  | [], k, _ => by simp
  | x :: xs, k, h => by
    rw [List.length_cons, List.range'_succ, List.map_cons, List.map_cons]
    have h0 : g k = f x := by simpa using h 0 (by simp)
    rw [h0, range'_map_eq d f g xs (k + 1) (fun j hj => by
      have := h (j + 1) (by simpa using Nat.succ_lt_succ hj)
      simpa [Nat.add_assoc, Nat.add_comm 1 j] using this)]

/-- The flat-array constructor, applied to the output of `messageToFlatArray`
for a non-empty segment list whose count and sizes fit in 32 bits, reports no
error and records exactly the original segments. -/
lemma flatArray_mtfa_eq (s0 : List Word) (tail : List (List Word))
    (hcount : tail.length + 1 < 2 ^ 32)
    (hsz : ∀ s ∈ (s0 :: tail), s.length < 2 ^ 32) :
    flatArrayMessageReader (messageToFlatArray (s0 :: tail)) =
      ⟨s0, tail, (messageToFlatArray (s0 :: tail)).length, false⟩ := by
  have hlen1 : (s0 :: tail).length = tail.length + 1 := by simp
  have t0 : tableGet (messageToFlatArray (s0 :: tail)) 0 = tail.length := by
    rw [messageToFlatArray_tableGet _ 0 (by rw [segmentTable_length]; omega),
      segmentTable_getD_zero, hlen1]
    omega
  have hcnt : (tableGet (messageToFlatArray (s0 :: tail)) 0 + 1) % 2 ^ 32 =
      tail.length + 1 := by
    rw [t0, Nat.mod_eq_of_lt hcount]
  have hsizes : ∀ i, i < tail.length + 1 →
      tableGet (messageToFlatArray (s0 :: tail)) (i + 1) =
        ((s0 :: tail).getD i []).length := by
    intro i hi
    have hmem : (s0 :: tail).getD i [] ∈ (s0 :: tail) := by
      rw [List.getD_eq_getElem?_getD, List.getElem?_eq_getElem (by simpa using hi)]
      exact List.getElem_mem _
    rw [messageToFlatArray_tableGet _ (i + 1) (by rw [segmentTable_length]; omega),
      segmentTable_getD_succ _ _ (by simpa using hi), Nat.mod_eq_of_lt (hsz _ hmem)]
  have alen : (messageToFlatArray (s0 :: tail)).length =
      (tail.length + 1) / 2 + 1 + (s0.length + (tail.map List.length).sum) := by
    rw [messageToFlatArray_length]
    simp
  have hdropA : (messageToFlatArray (s0 :: tail)).drop ((tail.length + 1) / 2 + 1) =
      s0 ++ tail.flatten := by
    have h := messageToFlatArray_drop (s0 :: tail)
    rw [hlen1] at h
    simpa [List.flatten_cons] using h
  have hs1 : tableGet (messageToFlatArray (s0 :: tail)) 1 = s0.length := by
    simpa using hsizes 0 (by omega)
  have hseg0 :
      ((messageToFlatArray (s0 :: tail)).drop ((tail.length + 1) / 2 + 1)).take s0.length
        = s0 := by
    rw [hdropA, List.take_left]
  rw [flatArrayMessageReader, if_neg (by omega)]
  simp only [hcnt, hs1, hseg0]
  rw [if_neg (by omega), if_neg (by omega), if_neg (by omega)]
  cases tail with
  | nil =>
    rw [if_neg (by norm_num)]
    have alen2 : (messageToFlatArray [s0]).length = 1 + s0.length := by simpa using alen
    simp only [FlatArrayMessageReader.mk.injEq, true_and, and_true, List.length_nil]
    omega
  | cons t1 trest =>
    rw [if_pos (by simp)]
    have hsl : (List.range' 1 ((t1 :: trest).length + 1 - 1)).map
          (fun i => tableGet (messageToFlatArray (s0 :: t1 :: trest)) (i + 1)) =
        (t1 :: trest).map List.length := by
      have he : (t1 :: trest).length + 1 - 1 = (t1 :: trest).length := rfl
      rw [he]
      refine range'_map_eq [] List.length _ (t1 :: trest) 1 (fun j hj => ?_)
      have h := hsizes (j + 1) (by omega)
      simpa [Nat.add_comm 1 j] using h
    rw [hsl]
    have hdrop2 : (messageToFlatArray (s0 :: t1 :: trest)).drop
        (((t1 :: trest).length + 1) / 2 + 1 + s0.length) = (t1 :: trest).flatten := by
      rw [← List.drop_drop, hdropA, List.drop_left]
    rw [readSegs_exact _ _ _ hdrop2 (by omega)]
    simp only [FlatArrayMessageReader.mk.injEq, true_and, and_true]
    omega

/-- Claim C1 (amended): for every non-empty segment list `S` with fewer than
`2^32` segments, each of size below the reader's `traversalLimitInWords`
where the limit is at most `2^32` (segment sizes and the count are stored as
32-bit table entries), the `FlatArrayMessageReader` constructed over
`messageToFlatArray S` reports no error and `getSegment i` returns `S[i]`
byte-for-byte for every `i < |S|`. -/
theorem messageToFlatArray_roundTrip (traversalLimitInWords : Nat)
    (S : List (List Word)) (hne : S ≠ []) (hcount : S.length < 2 ^ 32)
    (hlim : traversalLimitInWords ≤ 2 ^ 32)
    (hsz : ∀ s ∈ S, s.length < traversalLimitInWords) :
    (flatArrayMessageReader (messageToFlatArray S)).errored = false ∧
      ∀ i, i < S.length →
        (flatArrayMessageReader (messageToFlatArray S)).getSegment i = S.getD i [] := by
  obtain ⟨s0, tail, rfl⟩ := List.exists_cons_of_ne_nil hne
  have hq := flatArray_mtfa_eq s0 tail (by simpa using hcount)
    (fun s hs => lt_of_lt_of_le (hsz s hs) hlim)
  rw [hq]
  refine ⟨rfl, fun i hi => ?_⟩
  match i with
  | 0 => simp [FlatArrayMessageReader.getSegment]
  | i + 1 =>
    have hi2 : i < tail.length := by simpa using hi
    simp only [FlatArrayMessageReader.getSegment]
    rw [if_neg (by omega), if_pos (by omega)]
    simp

/-- Witness: the amended round-trip theorem applied to the one-segment
message `[[w]]` with `traversalLimitInWords = 2`. -/
theorem messageToFlatArray_roundTrip_witness :
    (flatArrayMessageReader (messageToFlatArray [[Word.mk 170 0]])).errored = false ∧
      ∀ i, i < ([[Word.mk 170 0]] : List (List Word)).length →
        (flatArrayMessageReader (messageToFlatArray [[Word.mk 170 0]])).getSegment i =
          [[Word.mk 170 0]].getD i [] :=
  messageToFlatArray_roundTrip 2 [[Word.mk 170 0]] (by simp) (by norm_num) (by norm_num)
    (by simp)

/-- For a single segment of exactly `2^32` words, the size entry written by
the serializer wraps to 0, so the reader parses an empty first segment and
stops one word in, reporting no error. -/
lemma flatArray_size_wrap (R : List Word) (hR : R.length = 2 ^ 32) :
    flatArrayMessageReader (messageToFlatArray [R]) = ⟨[], [], 1, false⟩ := by
  have hTable : segmentTable [R] = [0, 0] := by
    simp [segmentTable, hR]
  have hA : messageToFlatArray [R] = Word.mk 0 0 :: R := by
    rw [messageToFlatArray, hTable]
    simp [u32sToWords]
  rw [hA, flatArrayMessageReader]
  norm_num [tableGet]

/-- Claim C1 counterexample: with reader options whose
`traversalLimitInWords` is `2^33`, the single-segment list whose segment
holds `2^32` words satisfies the claim's hypotheses (non-empty, each segment
below the limit), yet the reader built over `messageToFlatArray` reports no
error and returns the empty view for segment 0 — the segment's size entry
wrapped to 0 in the 32-bit table. -/
theorem messageToFlatArray_roundTrip_counterexample :
    ([List.replicate (2 ^ 32) (Word.mk 170 170)] ≠ ([] : List (List Word))) ∧
    (∀ s ∈ [List.replicate (2 ^ 32) (Word.mk 170 170)], s.length < 2 ^ 33) ∧
    ¬ ((flatArrayMessageReader (messageToFlatArray
          [List.replicate (2 ^ 32) (Word.mk 170 170)])).errored = false ∧
        ∀ i, i < ([List.replicate (2 ^ 32) (Word.mk 170 170)] : List (List Word)).length →
          (flatArrayMessageReader (messageToFlatArray
              [List.replicate (2 ^ 32) (Word.mk 170 170)])).getSegment i =
            [List.replicate (2 ^ 32) (Word.mk 170 170)].getD i []) := by
  have hwrap := flatArray_size_wrap (List.replicate (2 ^ 32) (Word.mk 170 170))
    (List.length_replicate _ _)
  refine ⟨List.cons_ne_nil _ _, ?_, fun hcl => ?_⟩
  · intro s hs
    rw [List.mem_singleton] at hs
    rw [hs, List.length_replicate]
    norm_num
  · have h0 := hcl.2 0 (by
      rw [show ([List.replicate (2 ^ 32) (Word.mk 170 170)] :
        List (List Word)).length = 1 from rfl]
      exact Nat.zero_lt_one)
    rw [hwrap, List.getD_cons_zero] at h0
    have hzero : (List.replicate (2 ^ 32) (Word.mk 170 170)).length = 0 := by
      rw [← h0]
      rfl
    rw [List.length_replicate] at hzero
    exact absurd hzero (by norm_num)

/-- Full case analysis of the flat-array constructor: a failed construction
has no `moreSegments`; a successful one records exactly
`parsedSegmentCount − 1` of them. -/
lemma flatArray_shape (a : List Word) :
    ((flatArrayMessageReader a).errored = true ∧
        (flatArrayMessageReader a).moreSegments = []) ∨
    ((flatArrayMessageReader a).errored = false ∧
        (flatArrayMessageReader a).moreSegments.length = parsedSegmentCount a - 1) := by
  simp only [flatArrayMessageReader, parsedSegmentCount]
  split
  · right; exact ⟨rfl, by simp⟩
  · split
    · left; exact ⟨rfl, rfl⟩
    · split
      · rename_i h0
        right
        refine ⟨rfl, ?_⟩
        show ([] : List (List Word)).length = (tableGet a 0 + 1) % 2 ^ 32 - 1
        simp only [List.length_nil]
        omega
      · split
        · left; exact ⟨rfl, rfl⟩
        · split
          · split
            · left; exact ⟨rfl, rfl⟩
            · rename_i segs e hr
              right
              refine ⟨rfl, ?_⟩
              show segs.length = (tableGet a 0 + 1) % 2 ^ 32 - 1
              rw [readSegs_length _ _ _ _ _ hr]
              simp
          · right
            refine ⟨rfl, ?_⟩
            show ([] : List (List Word)).length = (tableGet a 0 + 1) % 2 ^ 32 - 1
            rename_i hc0 hn1
            simp only [List.length_nil]
            omega

lemma flatArray_err_moreSegments (a : List Word)
    (h : (flatArrayMessageReader a).errored = true) :
    (flatArrayMessageReader a).moreSegments = [] := by
  rcases flatArray_shape a with ⟨_, hms⟩ | ⟨hok, _⟩
  · exact hms
  · rw [h] at hok; exact absurd hok (by simp)

lemma flatArray_success_length (a : List Word)
    (hok : (flatArrayMessageReader a).errored = false) :
    (flatArrayMessageReader a).moreSegments.length = parsedSegmentCount a - 1 := by
  rcases flatArray_shape a with ⟨herr, _⟩ | ⟨_, hlen⟩
  · rw [hok] at herr; exact absurd herr (by simp)
  · exact hlen

/-- Claim C6: for every successfully constructed `FlatArrayMessageReader`
over a message with at least one segment, `getSegment` returns segment 0 for
`id = 0`, the recorded segment `id` for `1 ≤ id ≤ segmentCount − 1`, and the
empty view for every `id > segmentCount − 1` (no error is reported: the
function is total and returns the null sentinel). -/
theorem getSegment_spec (a : List Word)
    (hok : (flatArrayMessageReader a).errored = false)
    (hc : 1 ≤ parsedSegmentCount a) :
    (flatArrayMessageReader a).getSegment 0 = (flatArrayMessageReader a).segment0 ∧
    (∀ id, id ≤ parsedSegmentCount a - 1 →
      (flatArrayMessageReader a).getSegment id =
        ((flatArrayMessageReader a).segment0 ::
          (flatArrayMessageReader a).moreSegments).getD id []) ∧
    (∀ id, parsedSegmentCount a - 1 < id →
      (flatArrayMessageReader a).getSegment id = []) := by
  have hlen := flatArray_success_length a hok
  refine ⟨by simp [FlatArrayMessageReader.getSegment], fun id hid => ?_, fun id hid => ?_⟩
  · match id with
    | 0 => simp [FlatArrayMessageReader.getSegment]
    | id + 1 =>
      simp only [FlatArrayMessageReader.getSegment, List.getD_cons_succ]
      rw [if_neg (by omega), if_pos (by omega)]
      simp
  · simp only [FlatArrayMessageReader.getSegment]
    rw [if_neg (by omega), if_neg (by omega)]

/-- Witness: `getSegment_spec` applied to the flat image of the two-segment
message `[[w1],[w2]]`. -/
theorem getSegment_spec_witness :
    ((flatArrayMessageReader [Word.mk 1 1, Word.mk 1 0, Word.mk 7 7,
        Word.mk 9 9]).errored = false ∧
      1 ≤ parsedSegmentCount [Word.mk 1 1, Word.mk 1 0, Word.mk 7 7, Word.mk 9 9]) ∧
    ((flatArrayMessageReader [Word.mk 1 1, Word.mk 1 0, Word.mk 7 7,
        Word.mk 9 9]).getSegment 0 =
      (flatArrayMessageReader [Word.mk 1 1, Word.mk 1 0, Word.mk 7 7,
        Word.mk 9 9]).segment0 ∧
    (∀ id, id ≤ parsedSegmentCount [Word.mk 1 1, Word.mk 1 0, Word.mk 7 7,
        Word.mk 9 9] - 1 →
      (flatArrayMessageReader [Word.mk 1 1, Word.mk 1 0, Word.mk 7 7,
          Word.mk 9 9]).getSegment id =
        ((flatArrayMessageReader [Word.mk 1 1, Word.mk 1 0, Word.mk 7 7,
            Word.mk 9 9]).segment0 ::
          (flatArrayMessageReader [Word.mk 1 1, Word.mk 1 0, Word.mk 7 7,
            Word.mk 9 9]).moreSegments).getD id []) ∧
    (∀ id, parsedSegmentCount [Word.mk 1 1, Word.mk 1 0, Word.mk 7 7,
        Word.mk 9 9] - 1 < id →
      (flatArrayMessageReader [Word.mk 1 1, Word.mk 1 0, Word.mk 7 7,
          Word.mk 9 9]).getSegment id = [])) :=
  ⟨⟨by decide, by decide⟩,
    getSegment_spec [Word.mk 1 1, Word.mk 1 0, Word.mk 7 7, Word.mk 9 9]
      (by decide) (by decide)⟩

/-- Claim C9: for an input whose first 32-bit little-endian value is
`0xFFFFFFFF`, the computed segment count wraps to 0 and the constructor
succeeds with no error, exposing an empty message (every `getSegment` is the
empty view) with `end` one word past the start of the input. -/
theorem flatArray_wrapped_count (w : Word) (rest : List Word)
    (hlo : w.lo = 2 ^ 32 - 1) :
    (flatArrayMessageReader (w :: rest)).errored = false ∧
    (flatArrayMessageReader (w :: rest)).endIdx = 1 ∧
    ∀ id, (flatArrayMessageReader (w :: rest)).getSegment id = [] := by
  have hr : flatArrayMessageReader (w :: rest) = ⟨[], [], 1, false⟩ := by
    rw [flatArrayMessageReader]
    have ht : tableGet (w :: rest) 0 = 2 ^ 32 - 1 := by
      simp [tableGet, hlo]
    rw [if_neg (by simp)]
    simp only [ht]
    norm_num
  rw [hr]
  refine ⟨rfl, rfl, fun id => ?_⟩
  simp [FlatArrayMessageReader.getSegment]

/-- Witness: the wrapped-count theorem at the concrete one-word input
`FF FF FF FF 00 00 00 00`. -/
theorem flatArray_wrapped_count_witness :
    (Word.mk (2 ^ 32 - 1) 0).lo = 2 ^ 32 - 1 ∧
    ((flatArrayMessageReader [Word.mk (2 ^ 32 - 1) 0]).errored = false ∧
    (flatArrayMessageReader [Word.mk (2 ^ 32 - 1) 0]).endIdx = 1 ∧
    ∀ id, (flatArrayMessageReader [Word.mk (2 ^ 32 - 1) 0]).getSegment id = []) :=
  ⟨rfl, flatArray_wrapped_count (Word.mk (2 ^ 32 - 1) 0) [] rfl⟩

/-- Claim C8: `messageToFlatArray [[w0, w1], [w2]]` produces the 24-byte
prefix `01 00 00 00 02 00 00 00 01 00 00 00 00 00 00 00` followed by the
bytes of the three words `w0, w1, w2`. -/
theorem messageToFlatArray_concrete (w0 w1 w2 : Word) :
    bytesOfWords (messageToFlatArray [[w0, w1], [w2]]) =
      [1, 0, 0, 0, 2, 0, 0, 0, 1, 0, 0, 0, 0, 0, 0, 0] ++ bytesOfWords [w0, w1, w2] := by
  simp [messageToFlatArray, segmentTable, u32sToWords, bytesOfWords, Word.bytes, u32LEBytes]

/-! ### Byte-level lemmas for the written segment table -/

lemma readU32LE_append_right (xs ys : List Nat) (off : Nat) :
    readU32LE (xs ++ ys) (xs.length + off) = readU32LE ys off := by
  have g : ∀ j, (xs ++ ys).getD (xs.length + off + j) 0 = ys.getD (off + j) 0 := by
    intro j
    rw [List.getD_append_right _ _ _ _ (by omega)]
    congr 1
    omega
  have g0 := g 0
  simp only [Nat.add_zero] at g0
  simp only [readU32LE, g0, g 1, g 2, g 3]

lemma readU32LE_u32LEBytes (e : Nat) (tl : List Nat) :
    readU32LE (u32LEBytes e ++ tl) 0 = e % 2 ^ 32 := by
  simp [readU32LE, u32LEBytes]
  omega

lemma readU32LE_bytesOfU32s (es : List Nat) (tl : List Nat) (k : Nat)
    (h : k < es.length) :
    readU32LE (bytesOfU32s es ++ tl) (4 * k) = es.getD k 0 % 2 ^ 32 := by
  induction es generalizing k tl with
  | nil => simp at h
  | cons e rest ih =>
    match k with
    | 0 =>
      simp only [bytesOfU32s, List.map_cons, List.flatten_cons, List.append_assoc,
        Nat.mul_zero]
      rw [readU32LE_u32LEBytes]
      simp
    | k + 1 =>
      have h2 : k < rest.length := by simpa using h
      simp only [bytesOfU32s, List.map_cons, List.flatten_cons, List.append_assoc]
      rw [show 4 * (k + 1) = (u32LEBytes e).length + 4 * k from by
        simp [u32LEBytes]; ring]
      rw [readU32LE_append_right]
      simpa using ih _ k h2

lemma bytesOfWords_append (xs ys : List Word) :
    bytesOfWords (xs ++ ys) = bytesOfWords xs ++ bytesOfWords ys := by
  simp [bytesOfWords]

lemma bytesOfWords_u32sToWords (es : List Nat) (h : es.length % 2 = 0) :
    bytesOfWords (u32sToWords es) = bytesOfU32s es := by
  induction es using u32sToWords.induct with
  | case1 => simp [u32sToWords, bytesOfWords, bytesOfU32s]
  | case2 a => simp at h
  | case3 a b rest ih =>
    have h2 : rest.length % 2 = 0 := by simp at h; omega
    simp only [u32sToWords, bytesOfWords, List.map_cons, List.flatten_cons, Word.bytes]
    rw [show (List.map Word.bytes (u32sToWords rest)).flatten =
        bytesOfWords (u32sToWords rest) from rfl, ih h2]
    simp [bytesOfU32s]

lemma bytesOfWords_flatten (S : List (List Word)) :
    bytesOfWords S.flatten = (S.map bytesOfWords).flatten := by
  induction S with
  | nil => simp [bytesOfWords]
  | cons s rest ih =>
    simp only [List.flatten_cons, List.map_cons, bytesOfWords_append, ih]

/-- Claim C5 (amended): for every non-empty segment list with fewer than
`2^32` segments, each of size below `2^32` (count and sizes are stored as
32-bit entries), the table emitted by `writeMessage` — and byte-identically
by `messageToFlatArray` — has its first little-endian 32-bit entry equal to
`segmentCount − 1`, then one entry per segment holding that segment's size
in words, and, exactly when `segmentCount` is even, a 32-bit zero padding
entry at bytes `4·(segmentCount+1) .. 4·(segmentCount+2)`. -/
theorem writeMessage_table_layout (S : List (List Word)) (hne : S ≠ [])
    (hcount : S.length < 2 ^ 32) (hsz : ∀ s ∈ S, s.length < 2 ^ 32) :
    readU32LE (writeMessage S) 0 = S.length - 1 ∧
    (∀ i, i < S.length →
      readU32LE (writeMessage S) (4 * (i + 1)) = (S.getD i []).length) ∧
    (S.length % 2 = 0 → (segmentTable S).length = S.length + 2 ∧
      readU32LE (writeMessage S) (4 * (S.length + 1)) = 0) ∧
    (S.length % 2 = 1 → (segmentTable S).length = S.length + 1) ∧
    bytesOfWords (messageToFlatArray S) = writeMessage S := by
  have hlen1 : 1 ≤ S.length := by
    cases S with
    | nil => exact absurd rfl hne
    | cons s t => simp
  have htablen := segmentTable_length S
  refine ⟨?_, fun i hi => ?_, fun heven => ⟨by omega, ?_⟩, fun hodd => by omega, ?_⟩
  · rw [writeMessage, show (0 : Nat) = 4 * 0 from rfl,
      readU32LE_bytesOfU32s _ _ 0 (by omega), segmentTable_getD_zero]
    omega
  · have hmem : S.getD i [] ∈ S := by
      rw [List.getD_eq_getElem?_getD, List.getElem?_eq_getElem (by omega)]
      exact List.getElem_mem _
    rw [writeMessage, readU32LE_bytesOfU32s _ _ (i + 1) (by omega),
      segmentTable_getD_succ _ _ (by omega)]
    have := hsz _ hmem
    omega
  · have hpad : (segmentTable S).getD (S.length + 1) 0 = 0 := by
      simp only [segmentTable, List.getD_cons_succ]
      rw [List.getD_append_right _ _ _ _ (by simp)]
      simp [heven]
    rw [writeMessage, readU32LE_bytesOfU32s _ _ (S.length + 1) (by omega), hpad]
    norm_num
  · rw [messageToFlatArray, writeMessage, bytesOfWords_append,
      bytesOfWords_u32sToWords _ (by omega), bytesOfWords_flatten]

/-- Witness: the amended table-layout theorem at the one-segment message
`[[w]]`. -/
theorem writeMessage_table_layout_witness :
    readU32LE (writeMessage [[Word.mk 5 6]]) 0 = ([[Word.mk 5 6]] : List (List Word)).length - 1 ∧
    (∀ i, i < ([[Word.mk 5 6]] : List (List Word)).length →
      readU32LE (writeMessage [[Word.mk 5 6]]) (4 * (i + 1)) =
        (([[Word.mk 5 6]] : List (List Word)).getD i []).length) ∧
    (([[Word.mk 5 6]] : List (List Word)).length % 2 = 0 →
      (segmentTable [[Word.mk 5 6]]).length = ([[Word.mk 5 6]] : List (List Word)).length + 2 ∧
      readU32LE (writeMessage [[Word.mk 5 6]])
        (4 * (([[Word.mk 5 6]] : List (List Word)).length + 1)) = 0) ∧
    (([[Word.mk 5 6]] : List (List Word)).length % 2 = 1 →
      (segmentTable [[Word.mk 5 6]]).length = ([[Word.mk 5 6]] : List (List Word)).length + 1) ∧
    bytesOfWords (messageToFlatArray [[Word.mk 5 6]]) = writeMessage [[Word.mk 5 6]] :=
  writeMessage_table_layout [[Word.mk 5 6]] (by simp) (by norm_num) (by decide)

/-- Claim C5 counterexample: for the single-segment list whose segment holds
`2^32` words, the 32-bit table entry for segment 0 does not hold the
segment's size in words — it wrapped to 0. -/
theorem writeMessage_table_counterexample :
    ¬ readU32LE (writeMessage [List.replicate (2 ^ 32) (Word.mk 0 0)]) (4 * (0 + 1)) =
      (([List.replicate (2 ^ 32) (Word.mk 0 0)] : List (List Word)).getD 0 []).length := by
  intro h
  have hwrap : ∀ R : List Word, R.length = 2 ^ 32 →
      readU32LE (writeMessage [R]) (4 * (0 + 1)) = 0 := by
    intro R hR
    have hTable : segmentTable [R] = [0, 0] := by
      simp [segmentTable, hR]
    rw [writeMessage, hTable, readU32LE_bytesOfU32s _ _ 1 (by norm_num)]
    simp
  rw [hwrap (List.replicate (2 ^ 32) (Word.mk 0 0)) (List.length_replicate _ _),
    List.getD_cons_zero, List.length_replicate] at h
  exact absurd h (by norm_num)

/-! ### Stream-reader lemmas -/

lemma ismrCount1_eq_one_of_tooMany (input : List Nat)
    (hm : 512 ≤ ismrCount0 input) : ismrCount1 input = 1 := by
  unfold ismrCount1
  rw [if_pos hm]

lemma ismrCount2_eq_one_of_error (input : List Nat) (tl : Nat)
    (h : 512 ≤ ismrCount0 input ∨ tl < ismrTotal1 input) :
    ismrCount2 input tl = 1 := by
  unfold ismrCount2
  rcases h with hm | hl
  · split
    · rfl
    · exact ismrCount1_eq_one_of_tooMany input hm
  · rw [if_pos hl]

/-- Any error event in the constructor trace comes from one of the two
`KJ_REQUIRE` checks. -/
lemma ismr_error_conditions (input : List Nat) (tl sc : Nat) (k : ErrKind)
    (he : Event.errorReported k ∈ (inputStreamMessageReader input tl sc).2) :
    512 ≤ ismrCount0 input ∨ tl < ismrTotal1 input := by
  by_cases hm : 512 ≤ ismrCount0 input
  · exact Or.inl hm
  by_cases hl : tl < ismrTotal1 input
  · exact Or.inr hl
  exfalso
  rw [inputStreamMessageReader] at he
  simp only [ismrEv4, ismrEv2, if_neg hm, if_neg hl] at he
  repeat' (split at he)
  all_goals simp_all

lemma ismr_error_moreSegments (input : List Nat) (tl sc : Nat)
    (r : InputStreamMessageReader) (k : ErrKind)
    (hr : (inputStreamMessageReader input tl sc).1 = some r)
    (he : Event.errorReported k ∈ (inputStreamMessageReader input tl sc).2) :
    r.moreSegments = [] := by
  have hc2 := ismrCount2_eq_one_of_error input tl
    (ismr_error_conditions input tl sc k he)
  have hms : ismrMoreSegments input tl = [] := by
    unfold ismrMoreSegments
    rw [hc2]
    norm_num
  rw [inputStreamMessageReader] at hr
  repeat' (split at hr)
  all_goals (first
    | (obtain rfl := Option.some.inj hr; rfl)
    | simp at hr)

/-- Claim C2 (amended): a reader construction that fails exposes no later
segments — every `getSegment(id)` with `id ≥ 1` returns the empty view.  (The
flat reader may retain the already-validated segment 0, and the stream reader
degrades to a single clamped segment, so the claim's "every getSegment call"
holds only from id 1 on.) -/
theorem failed_reader_empty_later_segments :
    (∀ (a : List Word) (id : Nat), (flatArrayMessageReader a).errored = true →
      1 ≤ id → (flatArrayMessageReader a).getSegment id = []) ∧
    (∀ (input : List Nat) (tl sc : Nat) (r : InputStreamMessageReader)
      (k : ErrKind) (id : Nat),
      (inputStreamMessageReader input tl sc).1 = some r →
      Event.errorReported k ∈ (inputStreamMessageReader input tl sc).2 →
      1 ≤ id → r.getSegmentView id = emptyView) := by
  constructor
  · intro a id herr hid
    have hms := flatArray_err_moreSegments a herr
    simp only [FlatArrayMessageReader.getSegment, hms]
    rw [if_neg (by omega), if_neg (by simp; omega)]
  · intro input tl sc r k id hr he hid
    have hms := ismr_error_moreSegments input tl sc r k hr he
    simp only [InputStreamMessageReader.getSegmentView, hms]
    rw [if_pos (by simp; omega)]

/-- Claim C2 counterexample: the flat input declaring two segments of sizes
1 and 5 with only one payload word fails construction — yet `getSegment 0`
still returns the validated non-empty first segment, not the empty view. -/
theorem failed_reader_counterexample :
    (flatArrayMessageReader [Word.mk 1 1, Word.mk 5 0, Word.mk 11 12]).errored = true ∧
    (flatArrayMessageReader [Word.mk 1 1, Word.mk 5 0, Word.mk 11 12]).getSegment 0 =
      [Word.mk 11 12] := by
  decide

/-- Witness: the amended failure theorem at a truncated flat input and at a
too-many-segments stream input. -/
theorem failed_reader_empty_later_segments_witness :
    ((flatArrayMessageReader [Word.mk 1 1, Word.mk 5 0, Word.mk 11 12]).errored = true ∧
      (flatArrayMessageReader [Word.mk 1 1, Word.mk 5 0, Word.mk 11 12]).getSegment 1 = []) ∧
    (InputStreamMessageReader.mk 1 [] 2 none).getSegmentView 1 = emptyView :=
  ⟨⟨by decide,
      failed_reader_empty_later_segments.1 [Word.mk 1 1, Word.mk 5 0, Word.mk 11 12] 1
        (by decide) (by norm_num)⟩,
    failed_reader_empty_later_segments.2
      ([231, 3, 0, 0, 2, 0, 0, 0] ++ List.replicate 16 0) 100 0
      (InputStreamMessageReader.mk 1 [] 2 none) ErrKind.tooManySegments 1
      (by decide) (by decide) (by norm_num)⟩

/-- Claim C3: an 8-byte header declaring a segment count of 512 or more
makes the stream constructor report the too-many-segments failure directly
after the 8-byte header read: the first two trace events are the header read
and the error, so the failure precedes any segment-buffer allocation and any
payload-byte read. -/
theorem ismr_tooManySegments (input : List Nat) (tl sc : Nat)
    (h8 : 8 ≤ input.length) (hc : 512 ≤ ismrCount0 input) :
    ((inputStreamMessageReader input tl sc).2).take 2 =
      [Event.readStream 8 8, Event.errorReported ErrKind.tooManySegments] := by
  have h1 : ismrCount1 input = 1 := ismrCount1_eq_one_of_tooMany input hc
  have hev2 : ismrEv2 input =
      [Event.readStream 8 8, Event.errorReported ErrKind.tooManySegments] := by
    unfold ismrEv2
    rw [if_pos hc, h1]
    norm_num
  rw [inputStreamMessageReader, if_neg (by omega)]
  rw [if_neg (by rw [h1]; omega)]
  repeat' split
  all_goals (simp only [ismrEv4, hev2, List.append_assoc]; try rfl)

/-- Witness: the too-many-segments theorem at a header declaring 1000
segments. -/
theorem ismr_tooManySegments_witness :
    (8 ≤ ([231, 3, 0, 0, 2, 0, 0, 0] ++ List.replicate 16 0 : List Nat).length ∧
      512 ≤ ismrCount0 ([231, 3, 0, 0, 2, 0, 0, 0] ++ List.replicate 16 0)) ∧
    ((inputStreamMessageReader ([231, 3, 0, 0, 2, 0, 0, 0] ++ List.replicate 16 0)
        100 0).2).take 2 =
      [Event.readStream 8 8, Event.errorReported ErrKind.tooManySegments] :=
  ⟨⟨by decide, by decide⟩,
    ismr_tooManySegments ([231, 3, 0, 0, 2, 0, 0, 0] ++ List.replicate 16 0) 100 0
      (by decide) (by decide)⟩

/-! ### Lazy-read bounds for `InputStreamMessageReader::getSegment` -/

lemma buildMoreSegments_mem (offset : Nat) (l : List Nat) (q : Nat × Nat)
    (h : q ∈ buildMoreSegments offset l) : q.1 + q.2 ≤ offset + l.sum := by
  induction l generalizing offset with
  | nil => simp [buildMoreSegments] at h
  | cons x rest ih =>
    rw [buildMoreSegments] at h
    rcases List.mem_cons.mp h with rfl | h2
    · simp only [List.sum_cons]
      omega
    · have := ih (offset + x) h2
      simp only [List.sum_cons]
      omega

lemma lastEndOf_buildMoreSegments (offset : Nat) (l : List Nat) (hne : l ≠ []) :
    lastEndOf (buildMoreSegments offset l) = offset + l.sum := by
  induction l generalizing offset with
  | nil => exact absurd rfl hne
  | cons x rest ih =>
    cases rest with
    | nil => simp [buildMoreSegments, lastEndOf]
    | cons y t =>
      rw [buildMoreSegments, buildMoreSegments]
      rw [show lastEndOf ((offset, x) :: (offset + x, y) ::
            buildMoreSegments (offset + x + y) t) =
          lastEndOf ((offset + x, y) :: buildMoreSegments (offset + x + y) t) from by
        simp [lastEndOf, List.getLast?_cons_cons]]
      rw [show (offset + x, y) :: buildMoreSegments (offset + x + y) t =
          buildMoreSegments (offset + x) (y :: t) from rfl]
      rw [ih (offset + x) (by simp)]
      simp
      omega

/-- Invariant of every reachable stream-reader state with a live lazy
cursor: the cursor never passes the end of the last segment, that end is the
message's declared total word count, and every segment ends at or before
it. -/
def MRWF (r : InputStreamMessageReader) : Prop :=
  ∀ p, r.readPos = some p →
    p ≤ 8 * r.lastEnd ∧ r.lastEnd = r.totalWords ∧
    r.segment0Size ≤ r.lastEnd ∧
    ∀ q ∈ r.moreSegments, q.1 + q.2 ≤ r.lastEnd

/-- In the lazily-read (multi-segment) construction path, the recovery
clamps did not fire, the extra-size list is non-empty, and the recorded
bookkeeping is consistent. -/
lemma ismr_lazy_facts (input : List Nat) (tl : Nat)
    (h2 : 1 < ismrCount2 input tl) :
    ismrMoreSizes input ≠ [] ∧
    ismrSeg0Size2 input tl = ismrSeg0Size0 input ∧
    ismrTotal2 input tl = ismrSeg0Size0 input + (ismrMoreSizes input).sum := by
  have hnl : ¬ tl < ismrTotal1 input := by
    intro hl
    rw [ismrCount2_eq_one_of_error input tl (Or.inr hl)] at h2
    omega
  have hc21 : ismrCount2 input tl = ismrCount1 input := by
    unfold ismrCount2
    rw [if_neg hnl]
  have h1 : 1 < ismrCount1 input := by omega
  have hnm : ¬ 512 ≤ ismrCount0 input := by
    intro hm
    rw [ismrCount1_eq_one_of_tooMany input hm] at h1
    omega
  refine ⟨?_, ?_, ?_⟩
  · unfold ismrMoreSizes
    rw [if_pos h1]
    simp only [ne_eq, List.map_eq_nil_iff, List.range_eq_nil]
    omega
  · unfold ismrSeg0Size2 ismrSeg0Size1
    rw [if_neg hnl, if_neg hnm]
  · show ismrTotal2 input tl = _
    unfold ismrTotal2
    rw [if_neg hnl]
    unfold ismrTotal1
    rfl

lemma ismr_lazy_WF (input : List Nat) (tl q : Nat)
    (hc2gt1 : 1 < ismrCount2 input tl) (hq : q ≤ ismrTotal2 input tl * 8) :
    MRWF (InputStreamMessageReader.mk (ismrSeg0Size2 input tl)
      (ismrMoreSegments input tl) (ismrTotal2 input tl) (some q)) := by
  intro p hp
  obtain rfl := Option.some.inj hp
  obtain ⟨hms_ne, hs02, ht2⟩ := ismr_lazy_facts input tl hc2gt1
  have hmsg : ismrMoreSegments input tl =
      buildMoreSegments (ismrSeg0Size2 input tl) (ismrMoreSizes input) := by
    unfold ismrMoreSegments
    rw [if_pos hc2gt1]
  have hlast : lastEndOf (ismrMoreSegments input tl) =
      ismrSeg0Size2 input tl + (ismrMoreSizes input).sum := by
    rw [hmsg, lastEndOf_buildMoreSegments _ _ hms_ne]
  have hlast2 : lastEndOf (ismrMoreSegments input tl) = ismrTotal2 input tl := by
    rw [hlast, hs02, ht2]
  simp only [InputStreamMessageReader.lastEnd]
  refine ⟨?_, hlast2, ?_, ?_⟩
  · rw [hlast2]
    omega
  · rw [hlast]
    omega
  · intro q2 hq2
    rw [hmsg] at hq2
    rw [hlast]
    exact buildMoreSegments_mem _ _ _ hq2

lemma ismr_ctor_WF (input : List Nat) (tl sc : Nat)
    (r : InputStreamMessageReader)
    (hr : (inputStreamMessageReader input tl sc).1 = some r) : MRWF r := by
  rw [inputStreamMessageReader] at hr
  split at hr
  · simp at hr
  · split at hr
    · simp at hr
    · split at hr
      · split at hr
        · simp at hr
        · obtain rfl := Option.some.inj hr
          intro p hp
          simp at hp
      · split at hr
        · rename_i hc2gt1
          split at hr
          · simp at hr
          · obtain rfl := Option.some.inj hr
            exact ismr_lazy_WF input tl _ hc2gt1 (Nat.min_le_left _ _)
        · obtain rfl := Option.some.inj hr
          intro p hp
          simp at hp

lemma MRStep_WF (r r2 : InputStreamMessageReader) (hwf : MRWF r)
    (hs : MRStep r r2) : MRWF r2 := by
  cases hs with
  | lazyRead id n mn mx p hreq hmn hmx hp =>
    intro q hq
    obtain rfl := Option.some.inj hq
    obtain ⟨h1, h2, h3, h4⟩ := hwf p hp
    refine ⟨?_, h2, h3, h4⟩
    simp only [InputStreamMessageReader.getSegmentRequest] at hreq
    split at hreq
    · exact absurd hreq (by simp)
    · rw [hp] at hreq
      simp only [] at hreq
      split at hreq
      · obtain ⟨rfl, rfl⟩ : _ ∧ _ := by
          have := Option.some.inj hreq
          exact ⟨congrArg Prod.fst this, congrArg Prod.snd this⟩
        show p + n ≤ 8 * r.lastEnd
        have : r.lastEnd * 8 - p ≤ 8 * r.lastEnd - p := by omega
        omega
      · exact absurd hreq (by simp)

lemma MRReachable_WF (r : InputStreamMessageReader) (h : MRReachable r) : MRWF r := by
  obtain ⟨input, tl, sc, r0, h0, hsteps⟩ := h
  induction hsteps with
  | refl => exact ismr_ctor_WF _ _ _ _ h0
  | tail hstep hlast ih => exact MRStep_WF _ _ ih hlast

/-- Claim C10: in every reachable stream-reader state, a lazy read issued by
`getSegment(id)` for an in-range id requests at least the bytes up to the
requested segment's end (`minBytes = segmentEnd − readPos`) and at most the
bytes up to the end of the message's last segment, which is exactly the
declared payload end (`readPos + maxBytes = 8 · totalWords`); it never asks
the stream for bytes beyond the declared payload. -/
theorem getSegment_lazyRead_bounds (r : InputStreamMessageReader)
    (hreach : MRReachable r) (id mn mx p : Nat) (hp : r.readPos = some p)
    (hreq : r.getSegmentRequest id = some (mn, mx)) :
    p + mn = 8 * ((r.segmentRange id).1 + (r.segmentRange id).2) ∧
    p + mx = 8 * r.totalWords ∧ mn ≤ mx := by
  have hwf : MRWF r := MRReachable_WF r hreach
  obtain ⟨h1, h2, h3, h4⟩ := hwf p hp
  simp only [InputStreamMessageReader.getSegmentRequest] at hreq
  split at hreq
  · exact absurd hreq (by simp)
  · rename_i hidrange
    rw [hp] at hreq
    simp only [] at hreq
    split at hreq
    · rename_i hplt
      obtain ⟨rfl, rfl⟩ : _ ∧ _ := by
        have := Option.some.inj hreq
        exact ⟨congrArg Prod.fst this, congrArg Prod.snd this⟩
      have hseg : (r.segmentRange id).1 + (r.segmentRange id).2 ≤ r.lastEnd := by
        by_cases h0 : id = 0
        · subst h0
          simp only [InputStreamMessageReader.segmentRange, if_pos rfl]
          simpa using h3
        · have hlt : id - 1 < r.moreSegments.length := by omega
          have hmem : r.moreSegments.getD (id - 1) (0, 0) ∈ r.moreSegments := by
            rw [List.getD_eq_getElem?_getD, List.getElem?_eq_getElem hlt]
            exact List.getElem_mem _
          simp only [InputStreamMessageReader.segmentRange, if_neg h0]
          exact h4 _ hmem
      refine ⟨by omega, ?_, by omega⟩
      rw [← h2]
      omega
    · exact absurd hreq (by simp)

/-- Witness: the lazy-read bound theorem at a freshly constructed two-segment
reader whose stream delivered only segment 0 so far. -/
theorem getSegment_lazyRead_bounds_witness :
    ((InputStreamMessageReader.mk 1 [(1, 1)] 2 (some 8)).readPos = some 8 ∧
      (InputStreamMessageReader.mk 1 [(1, 1)] 2 (some 8)).getSegmentRequest 1 =
        some (8, 8)) ∧
    (8 + 8 = 8 * (((InputStreamMessageReader.mk 1 [(1, 1)] 2 (some 8)).segmentRange 1).1 +
        ((InputStreamMessageReader.mk 1 [(1, 1)] 2 (some 8)).segmentRange 1).2) ∧
      8 + 8 = 8 * (InputStreamMessageReader.mk 1 [(1, 1)] 2 (some 8)).totalWords ∧
      (8 : Nat) ≤ 8) :=
  ⟨⟨rfl, by decide⟩,
    getSegment_lazyRead_bounds (InputStreamMessageReader.mk 1 [(1, 1)] 2 (some 8))
      ⟨[1, 0, 0, 0, 1, 0, 0, 0, 1, 0, 0, 0, 0, 0, 0, 0, 9, 9, 9, 9, 9, 9, 9, 9],
        100, 0, InputStreamMessageReader.mk 1 [(1, 1)] 2 (some 8),
        by decide, Relation.ReflTransGen.refl⟩
      1 8 8 8 rfl (by decide)⟩

/-! ### Mutex futex-word bit arithmetic -/

lemma add_div_of_mod_add_lt (x y d : Nat) (hd : 0 < d) (h : x % d + y < d) :
    (x + y) / d = x / d := by
  have e0 := Nat.mod_add_div x d
  have e : x + y = (x % d + y) + d * (x / d) := by
    conv_lhs => rw [← e0]
    ring
  rw [e, Nat.add_mul_div_left _ _ hd, Nat.div_eq_of_lt h]
  omega

lemma or_two_pow_of_testBit_false (x i : Nat) (h : x.testBit i = false) :
    x ||| 2 ^ i = x + 2 ^ i := by
  apply Nat.eq_of_testBit_eq
  intro j
  rcases lt_trichotomy j i with hj | rfl | hj
  · rw [Nat.testBit_lor, Nat.testBit_two_pow, Nat.add_comm, Nat.testBit_two_pow_add_gt hj]
    simp [show ¬ i = j from by omega]
  · rw [Nat.testBit_lor, Nat.testBit_two_pow, Nat.add_comm, Nat.testBit_two_pow_add_eq, h]
    simp
  · rw [Nat.testBit_lor, Nat.testBit_two_pow]
    have h2 : x / 2 ^ i % 2 = 0 := by
      rw [Nat.testBit_to_div_mod] at h
      simpa using h
    have hxm : x % (2 ^ i * 2) < 2 ^ i := by
      rw [Nat.mod_mul, h2]
      simpa using Nat.mod_lt x (show 0 < 2 ^ i by positivity)
    have hij2 : (2 : Nat) ^ i * 2 * 2 ^ (j - (i + 1)) = 2 ^ j := by
      rw [show (2 : Nat) ^ i * 2 = 2 ^ (i + 1) from (pow_succ 2 i).symm, ← pow_add]
      congr 1
      omega
    have hdiv : (x + 2 ^ i) / 2 ^ j = x / 2 ^ j := by
      rw [← hij2, ← Nat.div_div_eq_div_mul (x + 2 ^ i) (2 ^ i * 2),
        ← Nat.div_div_eq_div_mul x (2 ^ i * 2),
        add_div_of_mod_add_lt x (2 ^ i) (2 ^ i * 2) (by positivity) (by linarith)]
    rw [Nat.testBit_to_div_mod, Nat.testBit_to_div_mod, hdiv]
    simp [show ¬ i = j from by omega]

lemma decomp_and_held (a b c : Nat) (ha : a ≤ 1) (hb : b ≤ 1) (hc : c < 2 ^ 30) :
    (a * 2 ^ 31 + b * 2 ^ 30 + c) &&& EXCLUSIVE_HELD = a * 2 ^ 31 := by
  show _ &&& 2 ^ 31 = _
  rw [Nat.and_two_pow, Nat.testBit_to_div_mod]
  have hd : (a * 2 ^ 31 + b * 2 ^ 30 + c) / 2 ^ 31 % 2 = a := by omega
  rw [hd]
  interval_cases a <;> simp

lemma decomp_and_req (a b c : Nat) (_ha : a ≤ 1) (hb : b ≤ 1) (hc : c < 2 ^ 30) :
    (a * 2 ^ 31 + b * 2 ^ 30 + c) &&& EXCLUSIVE_REQUESTED = b * 2 ^ 30 := by
  show _ &&& 2 ^ 30 = _
  rw [Nat.and_two_pow, Nat.testBit_to_div_mod]
  have hd : (a * 2 ^ 31 + b * 2 ^ 30 + c) / 2 ^ 30 % 2 = b := by omega
  rw [hd]
  interval_cases b <;> simp

lemma decomp_and_mask (a b c : Nat) (hc : c < 2 ^ 30) :
    (a * 2 ^ 31 + b * 2 ^ 30 + c) &&& SHARED_COUNT_MASK = c := by
  show _ &&& (2 ^ 30 - 1) = _
  rw [Nat.and_pow_two_sub_one_eq_mod]
  omega

lemma decomp_or_req (a c : Nat) (hc : c < 2 ^ 30) :
    (a * 2 ^ 31 + 0 * 2 ^ 30 + c) ||| EXCLUSIVE_REQUESTED =
      a * 2 ^ 31 + 1 * 2 ^ 30 + c := by
  show _ ||| 2 ^ 30 = _
  rw [or_two_pow_of_testBit_false]
  · ring
  · rw [Nat.testBit_to_div_mod, decide_eq_false_iff_not]
    omega

/-! ### Mutex invariant -/

lemma count_sum_eq_card (m : Multiset ThreadPC) :
    Multiset.count ThreadPC.idle m + Multiset.count ThreadPC.wantExcl m +
      Multiset.count ThreadPC.holdExcl m + Multiset.count ThreadPC.wantShared m +
      Multiset.count ThreadPC.sharedWaiting m + Multiset.count ThreadPC.holdShared m +
      Multiset.count ThreadPC.sharedClear m = Multiset.card m := by
  refine Multiset.induction_on m (by simp) ?_
  intro a s ih
  cases a <;> simp [Multiset.count_cons] <;> omega

/-- Inductive invariant of the mutex transition system: the futex word equals
(#exclusive holders)·2^31 + er·2^30 + (#shared holders + #shared waiters that
pre-incremented the count), with er ∈ {0,1}, at most one exclusive holder, and
no exclusive holder while any shared holder exists. -/
def MutexInv (s : Nat × Multiset ThreadPC) : Prop :=
  ∃ er ≤ 1,
    s.1 = Multiset.count ThreadPC.holdExcl s.2 * 2 ^ 31 + er * 2 ^ 30 +
        (Multiset.count ThreadPC.holdShared s.2 +
          Multiset.count ThreadPC.sharedWaiting s.2) ∧
    Multiset.count ThreadPC.holdExcl s.2 ≤ 1 ∧
    (0 < Multiset.count ThreadPC.holdShared s.2 →
      Multiset.count ThreadPC.holdExcl s.2 = 0) ∧
    Multiset.card s.2 ≤ 2 ^ 30 - 1

lemma mutexInit_inv (n : Nat) (hn : n ≤ 2 ^ 30 - 1) : MutexInv (mutexInit n) := by
  refine ⟨0, by omega, ?_, ?_, ?_, ?_⟩ <;>
    simp [mutexInit, Multiset.count_replicate] <;> omega

lemma MutexStep_inv {s s2 : Nat × Multiset ThreadPC} (hs : MutexStep s s2)
    (hinv : MutexInv s) : MutexInv s2 := by
  obtain ⟨er, her, hf, hex, hsh, hcard⟩ := hinv
  cases hs with
  | beginExcl f r =>
    simp [Multiset.count_cons, -Multiset.count_eq_zero]
      at hf hex hsh hcard
    refine ⟨er, her, ?_, ?_, ?_, ?_⟩ <;>
      simp [Multiset.count_cons, -Multiset.count_eq_zero] <;>
      omega
  | beginShared f r =>
    simp [Multiset.count_cons, -Multiset.count_eq_zero]
      at hf hex hsh hcard
    refine ⟨er, her, ?_, ?_, ?_, ?_⟩ <;>
      simp [Multiset.count_cons, -Multiset.count_eq_zero] <;>
      omega
  | lockExclFast r =>
    simp [Multiset.count_cons, -Multiset.count_eq_zero]
      at hf hex hsh hcard
    refine ⟨0, by omega, ?_, ?_, ?_, ?_⟩ <;>
      simp [Multiset.count_cons, EXCLUSIVE_HELD, -Multiset.count_eq_zero] <;>
      omega
  | lockExclSetReq f r hreq =>
    dsimp only at hf hex hsh hcard
    have hc2 := count_sum_eq_card (ThreadPC.wantExcl ::ₘ r)
    have hC : Multiset.count ThreadPC.holdShared (ThreadPC.wantExcl ::ₘ r) +
        Multiset.count ThreadPC.sharedWaiting (ThreadPC.wantExcl ::ₘ r) < 2 ^ 30 := by
      omega
    rw [hf, decomp_and_req _ _ _ hex her hC] at hreq
    have her0 : er = 0 := by omega
    subst her0
    have hword : f ||| EXCLUSIVE_REQUESTED =
        Multiset.count ThreadPC.holdExcl (ThreadPC.wantExcl ::ₘ r) * 2 ^ 31 +
          1 * 2 ^ 30 +
          (Multiset.count ThreadPC.holdShared (ThreadPC.wantExcl ::ₘ r) +
            Multiset.count ThreadPC.sharedWaiting (ThreadPC.wantExcl ::ₘ r)) := by
      rw [hf, decomp_or_req _ _ hC]
    simp [Multiset.count_cons, -Multiset.count_eq_zero]
      at hf hex hsh hcard hword
    refine ⟨1, by omega, ?_, ?_, ?_, ?_⟩ <;>
      simp [Multiset.count_cons, -Multiset.count_eq_zero] <;>
      omega
  | lockSharedAcq f r hacq =>
    dsimp only at hf hex hsh hcard
    have hc2 := count_sum_eq_card (ThreadPC.wantShared ::ₘ r)
    have hhead : Multiset.count ThreadPC.wantShared (ThreadPC.wantShared ::ₘ r) =
        Multiset.count ThreadPC.wantShared r + 1 := Multiset.count_cons_self _ _
    have hmod : (f + 1) % 2 ^ 32 = f + 1 := by omega
    rw [hmod] at hacq
    have hf1 : f + 1 =
        Multiset.count ThreadPC.holdExcl (ThreadPC.wantShared ::ₘ r) * 2 ^ 31 +
          er * 2 ^ 30 +
          (Multiset.count ThreadPC.holdShared (ThreadPC.wantShared ::ₘ r) +
            Multiset.count ThreadPC.sharedWaiting (ThreadPC.wantShared ::ₘ r) + 1) := by
      omega
    rw [hf1, decomp_and_held _ _ _ hex her (by omega)] at hacq
    simp [Multiset.count_cons, -Multiset.count_eq_zero]
      at hf hex hsh hcard hacq hc2
    refine ⟨er, her, ?_, ?_, ?_, ?_⟩ <;>
      simp [Multiset.count_cons, -Multiset.count_eq_zero] <;>
      omega
  | lockSharedWait f r hacq =>
    dsimp only at hf hex hsh hcard
    have hc2 := count_sum_eq_card (ThreadPC.wantShared ::ₘ r)
    have hhead : Multiset.count ThreadPC.wantShared (ThreadPC.wantShared ::ₘ r) =
        Multiset.count ThreadPC.wantShared r + 1 := Multiset.count_cons_self _ _
    have hmod : (f + 1) % 2 ^ 32 = f + 1 := by omega
    rw [hmod] at hacq
    have hf1 : f + 1 =
        Multiset.count ThreadPC.holdExcl (ThreadPC.wantShared ::ₘ r) * 2 ^ 31 +
          er * 2 ^ 30 +
          (Multiset.count ThreadPC.holdShared (ThreadPC.wantShared ::ₘ r) +
            Multiset.count ThreadPC.sharedWaiting (ThreadPC.wantShared ::ₘ r) + 1) := by
      omega
    rw [hf1, decomp_and_held _ _ _ hex her (by omega)] at hacq
    simp [Multiset.count_cons, -Multiset.count_eq_zero]
      at hf hex hsh hcard hacq hc2
    refine ⟨er, her, ?_, ?_, ?_, ?_⟩ <;>
      simp [Multiset.count_cons, -Multiset.count_eq_zero] <;>
      omega
  | sharedWake f r hw =>
    dsimp only at hf hex hsh hcard
    have hc2 := count_sum_eq_card (ThreadPC.sharedWaiting ::ₘ r)
    have hC : Multiset.count ThreadPC.holdShared (ThreadPC.sharedWaiting ::ₘ r) +
        Multiset.count ThreadPC.sharedWaiting (ThreadPC.sharedWaiting ::ₘ r) <
          2 ^ 30 := by
      omega
    rw [hf, decomp_and_held _ _ _ hex her hC] at hw
    simp [Multiset.count_cons, -Multiset.count_eq_zero]
      at hf hex hsh hcard hw
    refine ⟨er, her, ?_, ?_, ?_, ?_⟩ <;>
      simp [Multiset.count_cons, -Multiset.count_eq_zero] <;>
      omega
  | unlockExcl f r =>
    dsimp only at hf hex hsh hcard
    have hc2 := count_sum_eq_card (ThreadPC.holdExcl ::ₘ r)
    have hC : Multiset.count ThreadPC.holdShared (ThreadPC.holdExcl ::ₘ r) +
        Multiset.count ThreadPC.sharedWaiting (ThreadPC.holdExcl ::ₘ r) < 2 ^ 30 := by
      omega
    have hword : f &&& SHARED_COUNT_MASK =
        Multiset.count ThreadPC.holdShared (ThreadPC.holdExcl ::ₘ r) +
          Multiset.count ThreadPC.sharedWaiting (ThreadPC.holdExcl ::ₘ r) := by
      rw [hf, decomp_and_mask _ _ _ hC]
    simp [Multiset.count_cons, -Multiset.count_eq_zero]
      at hf hex hsh hcard hword
    refine ⟨0, by omega, ?_, ?_, ?_, ?_⟩ <;>
      simp [Multiset.count_cons, -Multiset.count_eq_zero] <;>
      omega
  | unlockSharedDone f r hne =>
    dsimp only at hf hex hsh hcard
    have hc2 := count_sum_eq_card (ThreadPC.holdShared ::ₘ r)
    simp [Multiset.count_cons, -Multiset.count_eq_zero]
      at hf hex hsh hcard hc2
    refine ⟨er, her, ?_, ?_, ?_, ?_⟩ <;>
      simp [Multiset.count_cons, -Multiset.count_eq_zero] <;>
      omega
  | unlockSharedSawReq f r heq =>
    dsimp only at hf hex hsh hcard
    have hc2 := count_sum_eq_card (ThreadPC.holdShared ::ₘ r)
    simp [Multiset.count_cons, -Multiset.count_eq_zero]
      at hf hex hsh hcard hc2
    refine ⟨er, her, ?_, ?_, ?_, ?_⟩ <;>
      simp [Multiset.count_cons, -Multiset.count_eq_zero] <;>
      omega
  | sharedClearHit r =>
    dsimp only at hf hex hsh hcard
    have hc2 := count_sum_eq_card (ThreadPC.sharedClear ::ₘ r)
    simp [Multiset.count_cons, EXCLUSIVE_REQUESTED, -Multiset.count_eq_zero] at hf hex hsh hcard hc2
    refine ⟨0, by omega, ?_, ?_, ?_, ?_⟩ <;>
      simp [Multiset.count_cons, -Multiset.count_eq_zero] <;>
      omega
  | sharedClearMiss f r hne =>
    simp [Multiset.count_cons, -Multiset.count_eq_zero]
      at hf hex hsh hcard
    refine ⟨er, her, ?_, ?_, ?_, ?_⟩ <;>
      simp [Multiset.count_cons, -Multiset.count_eq_zero] <;>
      omega


lemma MutexReachable_inv (n : Nat) (s : Nat × Multiset ThreadPC)
    (hn : n ≤ 2 ^ 30 - 1) (hs : MutexReachable n s) : MutexInv s := by
  unfold MutexReachable at hs
  induction hs with
  | refl => exact mutexInit_inv n hn
  | tail _ h2 ih => exact MutexStep_inv h2 ih

/-- Claim C4 (amended): thread-level reader/writer exclusion.  The futex word
itself can have `EXCLUSIVE_HELD` set while `SHARED_COUNT` is nonzero, because
`lock(SHARED)` increments the count before testing the bit
(kj/mutex.c++:64-66); what does hold in every reachable state (with fewer
than 2^30 threads) is that no thread holds the lock in shared mode while
another holds it exclusively. -/
theorem mutex_no_simultaneous_holders (n : Nat) (hn : n ≤ 2 ^ 30 - 1)
    (s : Nat × Multiset ThreadPC) (hs : MutexReachable n s) :
    ¬ (0 < Multiset.count ThreadPC.holdExcl s.2 ∧
        0 < Multiset.count ThreadPC.holdShared s.2) := by
  obtain ⟨er, her, hf, hex, hsh, hcard⟩ := MutexReachable_inv n s hn hs
  rintro ⟨h1, h2⟩
  have := hsh h2
  omega

/-- Witness: the mutual-exclusion theorem at the initial two-thread state. -/
theorem mutex_no_simultaneous_holders_witness :
    2 ≤ 2 ^ 30 - 1 ∧
    ¬ (0 < Multiset.count ThreadPC.holdExcl (mutexInit 2).2 ∧
        0 < Multiset.count ThreadPC.holdShared (mutexInit 2).2) :=
  ⟨by norm_num, mutex_no_simultaneous_holders 2 (by norm_num) (mutexInit 2)
    Relation.ReflTransGen.refl⟩

/-- Counterexample to the word-level reading of the claim: with one exclusive
holder and one shared locker that has pre-incremented the count
(kj/mutex.c++:64-66), the reachable futex word `2^31 + 1` has
`EXCLUSIVE_HELD` set and `SHARED_COUNT > 0` simultaneously. -/
theorem mutex_word_counterexample :
    MutexReachable 2 (EXCLUSIVE_HELD + 1,
        {ThreadPC.sharedWaiting, ThreadPC.holdExcl}) ∧
    (EXCLUSIVE_HELD + 1) &&& EXCLUSIVE_HELD ≠ 0 ∧
    0 < (EXCLUSIVE_HELD + 1) &&& SHARED_COUNT_MASK := by
  refine ⟨?_, by decide, by decide⟩
  have h1 : MutexStep (mutexInit 2)
      (0, ThreadPC.wantShared ::ₘ ThreadPC.idle ::ₘ 0) :=
    MutexStep.beginShared 0 (ThreadPC.idle ::ₘ 0)
  have e1 : ((0 : Nat), ThreadPC.wantShared ::ₘ ThreadPC.idle ::ₘ (0 : Multiset ThreadPC)) =
      ((0 : Nat), ThreadPC.idle ::ₘ ThreadPC.wantShared ::ₘ 0) :=
    congrArg (Prod.mk (0 : Nat)) (Multiset.cons_swap _ _ _)
  have h2 : MutexStep ((0 : Nat), ThreadPC.idle ::ₘ ThreadPC.wantShared ::ₘ 0)
      (0, ThreadPC.wantExcl ::ₘ ThreadPC.wantShared ::ₘ 0) :=
    MutexStep.beginExcl 0 (ThreadPC.wantShared ::ₘ 0)
  have h3 : MutexStep ((0 : Nat), ThreadPC.wantExcl ::ₘ ThreadPC.wantShared ::ₘ 0)
      (EXCLUSIVE_HELD, ThreadPC.holdExcl ::ₘ ThreadPC.wantShared ::ₘ 0) :=
    MutexStep.lockExclFast (ThreadPC.wantShared ::ₘ 0)
  have e2 : (EXCLUSIVE_HELD,
        ThreadPC.holdExcl ::ₘ ThreadPC.wantShared ::ₘ (0 : Multiset ThreadPC)) =
      (EXCLUSIVE_HELD, ThreadPC.wantShared ::ₘ ThreadPC.holdExcl ::ₘ 0) :=
    congrArg (Prod.mk EXCLUSIVE_HELD) (Multiset.cons_swap _ _ _)
  have h4 : MutexStep (EXCLUSIVE_HELD, ThreadPC.wantShared ::ₘ ThreadPC.holdExcl ::ₘ 0)
      (EXCLUSIVE_HELD + 1, ThreadPC.sharedWaiting ::ₘ ThreadPC.holdExcl ::ₘ 0) := by
    have h := MutexStep.lockSharedWait EXCLUSIVE_HELD (ThreadPC.holdExcl ::ₘ 0) (by decide)
    rw [show (EXCLUSIVE_HELD + 1) % 2 ^ 32 = EXCLUSIVE_HELD + 1 from by decide] at h
    exact h
  refine Relation.ReflTransGen.head h1 ?_
  rw [e1]
  refine Relation.ReflTransGen.head h2 ?_
  refine Relation.ReflTransGen.head h3 ?_
  rw [e2]
  exact Relation.ReflTransGen.single h4

/-! ### Once latch -/

/-- Claim C7: if the initializer passed to `runOnce` exits abnormally, the
latch is restored to `UNINITIALIZED` and the failure propagates to that
caller; a subsequent `runOnce` whose initializer succeeds with `v` returns
normally, the latch ends `INITIALIZED`, and `v` is the value observed
(kj/mutex.c++:137-186; test at kj/mutex-test.c++:169-191). -/
theorem runOnce_no_poisoning {α : Type} (c : OnceCell α) (v : α)
    (h : c.state = OnceState.UNINITIALIZED) :
    (runOnce c (Except.error ())).2 = RunOutcome.raised ∧
    ((runOnce c (Except.error ())).1).state = OnceState.UNINITIALIZED ∧
    (runOnce (runOnce c (Except.error ())).1 (Except.ok v)).2 = RunOutcome.returned ∧
    ((runOnce (runOnce c (Except.error ())).1 (Except.ok v)).1).state =
      OnceState.INITIALIZED ∧
    ((runOnce (runOnce c (Except.error ())).1 (Except.ok v)).1).value = some v := by
  obtain ⟨st, val⟩ := c
  cases st <;> simp_all [runOnce]

/-- Witness: a failing then a succeeding initializer on a fresh latch, with
value 456 as in the `LazyException` test. -/
theorem runOnce_no_poisoning_witness :
    (OnceCell.mk OnceState.UNINITIALIZED (none : Option Nat)).state =
        OnceState.UNINITIALIZED ∧
    ((runOnce (OnceCell.mk OnceState.UNINITIALIZED (none : Option Nat))
          (Except.error ())).2 = RunOutcome.raised ∧
      ((runOnce (OnceCell.mk OnceState.UNINITIALIZED (none : Option Nat))
            (Except.error ())).1).state = OnceState.UNINITIALIZED ∧
      (runOnce (runOnce (OnceCell.mk OnceState.UNINITIALIZED (none : Option Nat))
            (Except.error ())).1 (Except.ok 456)).2 = RunOutcome.returned ∧
      ((runOnce (runOnce (OnceCell.mk OnceState.UNINITIALIZED (none : Option Nat))
            (Except.error ())).1 (Except.ok 456)).1).state = OnceState.INITIALIZED ∧
      ((runOnce (runOnce (OnceCell.mk OnceState.UNINITIALIZED (none : Option Nat))
            (Except.error ())).1 (Except.ok 456)).1).value = some 456) :=
  ⟨rfl, runOnce_no_poisoning (OnceCell.mk OnceState.UNINITIALIZED none) 456 rfl⟩

end Capnp
